import Mathlib

/-!
Verification of the tiddly wiki server: a revisioned tiddler store backed by
a key-value datastore (tiddly.go: `putTiddler`, `getTiddler`, `deleteTiddler`,
`tiddlerList`) and a git mirror job (gitbackup.go: `index`, `GitDir.Commit`).

The Go code is embedded shallowly:

* JSON values (`map[string]interface{}` after `json.Unmarshal`) become the
  inductive `JValue`; a decoded JSON object is an association list with
  distinct keys, in some order (Go maps are unordered; every operation here
  is order-insensitive or sorts explicitly, as the source does).
* JSON numbers are modelled as integers (the only number the store itself
  writes is the integral `revision`; `json.Marshal` prints an integral
  float64 without a decimal point, matching `toString` on `Int`).
* The datastore becomes explicit association lists keyed by string
  (`datastore.Get` = `alookup`, `datastore.Put` = `aset`), with the two
  kinds `Tiddler` and `TiddlerHistory` as two lists.
* The stored `Meta` string is either the empty string (its zero value, also
  written by `deleteTiddler`) or `json.Marshal` of an object (written by
  `putTiddler`); it is modelled as `Option JObj` with `none` for the empty
  string, and marshalling applied where the source applies it.
* HTTP outcomes become a numeric status plus the data written on success;
  `http.Error(w, ..., code)` is the status `code`, a handler that finishes
  without error is status 200.
-/

namespace Tiddly

/-- A JSON value as decoded by Go's `encoding/json` into `interface\x7b\x7d`
(strings, numbers, booleans, null, arrays, objects). Numbers are modelled as
integers, see the file comment. -/
inductive JValue where
  | str (s : String)
  | num (n : Int)
  | bool (b : Bool)
  | null
  | arr (elems : List JValue)
  | obj (fields : List (String × JValue))

/-- A decoded JSON object: a Go `map[string]interface\x7b\x7d` as an
association list (keys distinct, unspecified order). -/
abbrev JObj := List (String × JValue)

mutual
/-- Structural size of a JSON value, used as recursion fuel for the
marshaller (recursion depth is bounded by the size). -/
def sizeV : JValue → Nat
  | .str _ => 1
  | .num _ => 1
  | .bool _ => 1
  | .null => 1
  | .arr xs => 1 + sizeL xs
  | .obj fs => 1 + sizeF fs
/-- Size of a list of JSON values. -/
def sizeL : List JValue → Nat
  | [] => 0
  | x :: xs => sizeV x + sizeL xs
/-- Size of a list of JSON object fields. -/
def sizeF : List (String × JValue) → Nat
  | [] => 0
  | (_, v) :: fs => sizeV v + sizeF fs
end

/-- `m[k]` on a Go map modelled as an association list: the value at key
`k`, if present. -/
def alookup {α : Type} (k : String) : List (String × α) → Option α
  | [] => none
  | (k', v) :: rest => if k' = k then some v else alookup k rest

/-- `m[k] = v` on a Go map: replace the binding of `k`, or add one. -/
def aset {α : Type} (k : String) (v : α) : List (String × α) → List (String × α)
  | [] => [(k, v)]
  | (k', v') :: rest => if k' = k then (k, v) :: rest else (k', v') :: aset k v rest

/-- `delete(m, k)` on a Go map: drop the binding of `k`. -/
def aerase {α : Type} (k : String) (l : List (String × α)) : List (String × α) :=
  l.filter (fun e => e.1 ≠ k)

/-- Byte-wise lexicographic string order of Go (`s1 < s2` on `string`,
used by `sort.Strings`), as a boolean on the character lists. UTF-8 byte
order coincides with code-point order, so comparing `Char.toNat` is exact. -/
def lexLeB : List Char → List Char → Bool
  | [], _ => true
  | _ :: _, [] => false
  | a :: as, b :: bs =>
    if a.toNat < b.toNat then true
    else if b.toNat < a.toNat then false
    else lexLeB as bs

/-- Go's string order `a <= b`, as a proposition. -/
def strLe (a b : String) : Prop := lexLeB a.data b.data = true

instance : DecidableRel strLe := fun a b => instDecidableEqBool (lexLeB a.data b.data) true

/-- Ordering of JSON object fields by key, for `json.Marshal`'s sorted-key
output on maps. -/
def pairLe (p q : String × JValue) : Prop := strLe p.1 q.1

instance : DecidableRel pairLe := fun p q => instDecidableEqBool (lexLeB p.1.data q.1.data) true

/-- Lower-case hex digit, as printed by `encoding/json` escapes. -/
def hexDigit (n : Nat) : Char :=
  if n < 10 then Char.ofNat (48 + n) else Char.ofNat (87 + n)

/-- Escaping of one character in a JSON string by Go's `encoding/json`
(default encoder: quotes, backslash, HTML characters, control characters,
U+2028/U+2029). -/
def escapeChar (c : Char) : String :=
  if c = '"' then "\\\""
  else if c = '\\' then "\\\\"
  else if c = '\n' then "\\n"
  else if c = '\r' then "\\r"
  else if c = '\t' then "\\t"
  else if c = '<' then "\\u003c"
  else if c = '>' then "\\u003e"
  else if c = '&' then "\\u0026"
  else if c.toNat < 32 then "\\u00" ++ String.mk [hexDigit (c.toNat / 16), hexDigit (c.toNat % 16)]
  else if c.toNat = 8232 then "\\u2028"
  else if c.toNat = 8233 then "\\u2029"
  else String.singleton c

/-- A JSON string literal as emitted by `encoding/json`. -/
def quoteStr (s : String) : String :=
  "\"" ++ String.join (s.data.map escapeChar) ++ "\""

/-- `json.Marshal`, with fuel bounding the recursion depth (the depth of a
value is at most its size, so `marshal` below never exhausts it). Go
marshals a map with its keys in sorted order. -/
def marshalFuel : Nat → JValue → String
  | 0, _ => ""
  | n + 1, v =>
    match v with
    | .str s => quoteStr s
    | .num k => toString k
    | .bool b => if b then "true" else "false"
    | .null => "null"
    | .arr xs => "[" ++ String.intercalate "," (xs.map (marshalFuel n)) ++ "]"
    | .obj fs =>
      "\x7b" ++ String.intercalate ","
        ((List.insertionSort pairLe fs).map
          (fun p => quoteStr p.1 ++ ":" ++ marshalFuel n p.2)) ++ "\x7d"

/-- `json.Marshal` of a JSON value (marshalling of a value decoded from
JSON never fails). -/
def marshal (v : JValue) : String := marshalFuel (sizeV v) v

/-- `json.Marshal` of a decoded object, as stored in `Tiddler.Meta`. -/
def marshalObj (fs : JObj) : String := marshal (.obj fs)

/-- Is `needle` a prefix of `hay` (character lists)? -/
def matchesHead : List Char → List Char → Bool
  | [], _ => true
  | _ :: _, [] => false
  | a :: as, b :: bs => a == b && matchesHead as bs

/-- `strings.Contains`: does `needle` occur as a contiguous substring? -/
def containsSeq (needle : List Char) : List Char → Bool
  | [] => matchesHead needle []
  | hay@(_ :: rest) => matchesHead needle hay || containsSeq needle rest

/-- The macro marker that `tiddlerList` looks for in the marshalled
metadata: the quoted string `"$:/tags/Macro"`. -/
def macroMarker : String := "\"$:/tags/Macro\""

/-- `strings.Contains(meta, macroMarker)` on a marshalled metadata blob. -/
def metaHasMacroTag (meta : String) : Bool :=
  containsSeq macroMarker.data meta.data

/-- The datastore entity `Tiddler` (tiddly.go). `Meta` holds either the
empty string (zero value; also what `deleteTiddler` writes) or
`json.Marshal` of an object (what `putTiddler` writes); it is modelled as
`Option JObj` with `none` for the empty string. The `Tags` field is never
written or read by any handler and is omitted. -/
structure Tiddler where
  rev : Nat
  meta : Option JObj
  text : String

/-- The datastore: current records (kind `Tiddler`, keyed by title) and the
append-only history (kind `TiddlerHistory`, keyed by `title#rev`). -/
structure ServerState where
  tiddlers : List (String × Tiddler)
  history : List (String × Tiddler)

/-- The empty datastore. -/
def emptyState : ServerState := ⟨[], []⟩

/-- The body of a PUT request after `ioutil.ReadAll` and `json.Unmarshal`:
reading the body can fail, unmarshalling can fail (malformed JSON, or a
top-level value that is not an object), or it decodes to an object. -/
inductive Payload where
  | unreadable
  | unparsable
  | parsed (js : JObj)

/-- The HTTP method of a request, as far as the handlers inspect it. -/
inductive Method where
  | get
  | put
  | delete
  | other

/-- HTTP statuses produced by the handlers, and the spec's taxonomy names
for them. `statusNotFound` is what the spec calls `NotFound`; no handler
in the source ever produces it. -/
def statusOK : Nat := 200

/-- 400, the spec's `BadRequest`. -/
def statusBadRequest : Nat := 400

/-- 404, the spec's `NotFound`. -/
def statusNotFound : Nat := 404

/-- 405, `bad method`. -/
def statusBadMethod : Nat := 405

/-- 500, the spec's `Internal`. -/
def statusInternal : Nat := 500

/-- Outcome of a write handler: HTTP status, revision assigned (on
success), resulting datastore. -/
structure WriteOut where
  status : Nat
  assigned : Option Nat
  state : ServerState

/-- Outcome of `getTiddler`: HTTP status and, on success, the decoded form
of the JSON body written (the body is its `marshalObj`). -/
structure GetOut where
  status : Nat
  body : Option JObj

/-- `putTiddler` (tiddly.go). Reads the body (400 on read failure),
unmarshals it (500 on failure), injects `bag` and `revision`, pulls the
`text` field out into the entity body, writes current record and history
record, answers 200 (with an Etag built from title, revision and an MD5 of
the raw payload, not modelled). Datastore writes are assumed to succeed;
on `datastore.Get` failure (entity absent) the revision restarts at 1. -/
def putTiddler (st : ServerState) (title : String) (p : Payload) : WriteOut :=
  match p with
  | .unreadable => ⟨statusBadRequest, none, st⟩
  | .unparsable => ⟨statusInternal, none, st⟩
  | .parsed js =>
    let js1 := aset "bag" (.str "bag") js
    let rev := match alookup title st.tiddlers with
      | some old => old.rev + 1
      | none => 1
    let js2 := aset "revision" (.num rev) js1
    let text := match alookup "text" js2 with
      | some (.str s) => s
      | _ => ""
    let js3 := aerase "text" js2
    let t : Tiddler := ⟨rev, some js3, text⟩
    ⟨statusOK, some rev,
      ⟨aset title t st.tiddlers,
       aset (title ++ "#" ++ toString rev) t st.history⟩⟩

/-- `deleteTiddler` (tiddly.go). 405 unless the method is DELETE; reads the
current record (500 when the datastore lookup fails, i.e. the title is
absent); increments the revision, clears `Meta` and `Text`, writes current
record and history record. -/
def deleteTiddler (st : ServerState) (title : String) (m : Method) : WriteOut :=
  match m with
  | .delete =>
    match alookup title st.tiddlers with
    | none => ⟨statusInternal, none, st⟩
    | some t =>
      let t' : Tiddler := ⟨t.rev + 1, none, ""⟩
      ⟨statusOK, some (t.rev + 1),
        ⟨aset title t' st.tiddlers,
         aset (title ++ "#" ++ toString (t.rev + 1)) t' st.history⟩⟩
  | _ => ⟨statusBadMethod, none, st⟩

/-- `getTiddler` (tiddly.go). 500 when the datastore lookup fails (title
absent); 500 when `json.Unmarshal` of the stored `Meta` fails (in any
reachable state exactly when `Meta` is the empty tombstone string);
otherwise merges the body back in under `text` and answers 200 with the
marshalled object. -/
def getTiddler (st : ServerState) (title : String) : GetOut :=
  match alookup title st.tiddlers with
  | none => ⟨statusInternal, none⟩
  | some t =>
    match t.meta with
    | none => ⟨statusInternal, none⟩
    | some js => ⟨statusOK, some (aset "text" (.str t.text) js)⟩

/-- `tiddler` (tiddly.go): method dispatch of the
`/recipes/all/tiddlers/` endpoint. GET and PUT are handled, every other
method gets 405. -/
def tiddlerDispatch (st : ServerState) (m : Method) (title : String) (p : Payload) : WriteOut :=
  match m with
  | .get => let g := getTiddler st title; ⟨g.status, none, st⟩
  | .put => putTiddler st title p
  | _ => ⟨statusBadMethod, none, st⟩

/-- The blob `tiddlerList` emits for one stored tiddler, if any: entities
with empty `Meta` are skipped; a blob containing the macro marker is
re-unmarshalled, gets `text` set to the body, and is re-marshalled (the
decode of a blob `putTiddler` marshalled always succeeds, so the
skip-on-unmarshal-failure branch of the source is not reachable here);
other blobs are emitted as stored. -/
def emitOne (t : Tiddler) : Option String :=
  match t.meta with
  | none => none
  | some js =>
    let meta := marshalObj js
    if metaHasMacroTag meta then
      some (marshalObj (aset "text" (.str t.text) js))
    else
      some meta

/-- The blobs emitted by `tiddlerList`, in store iteration order. -/
def listBlobs (st : ServerState) : List String :=
  st.tiddlers.filterMap (fun e => emitOne e.2)

/-- `tiddlerList` (tiddly.go): the JSON array written as the response,
blobs joined by commas between brackets. -/
def tiddlerList (st : ServerState) : String :=
  "[" ++ String.intercalate "," (listBlobs st) ++ "]"

/-- One inbound mutating call: a PUT of a payload to a title, or a DELETE
of a title with some method. -/
inductive Op where
  | put (title : String) (p : Payload)
  | del (title : String) (m : Method)

/-- The title an operation addresses. -/
def Op.title : Op → String
  | .put t _ => t
  | .del t _ => t

/-- Run one operation against the store. -/
def stepW (st : ServerState) : Op → WriteOut
  | .put title p => putTiddler st title p
  | .del title m => deleteTiddler st title m

/-- The datastore after one operation. -/
def applyOp (st : ServerState) (op : Op) : ServerState := (stepW st op).state

/-- The datastore after a sequence of operations from the empty store. -/
def runOps (ops : List Op) : ServerState := ops.foldl applyOp emptyState

/-- A state the server can actually be in: reached from the empty
datastore by some sequence of calls. -/
def Reachable (st : ServerState) : Prop := ∃ ops, st = runOps ops

/-- The revisions assigned to title `T` by the successful write/delete
calls of a run, in call order. -/
def revsFor (T : String) : ServerState → List Op → List Nat
  | _, [] => []
  | st, op :: rest =>
    let o := stepW st op
    (if op.title = T then o.assigned.toList else []) ++ revsFor T o.state rest

/-- The current revision the store holds for a title (0 when the title was
never written, matching the datastore zero value semantics: `putTiddler`
then assigns `0 + 1 = 1`). -/
def curRev (st : ServerState) (T : String) : Nat :=
  match alookup T st.tiddlers with
  | some t => t.rev
  | none => 0

/-! ### The git mirror job (gitbackup.go) -/

/-- Go `fmt`'s `%v` rendering of a decoded JSON value (gitbackup.go prints
metadata fields with `fmt.Sprintf("%s: %v\n", k, js[k])`): strings
verbatim, `nil` as `<nil>`, slices bracketed and space-separated, maps as
`map[k1:v1 k2:v2]` with sorted keys. Fuelled like `marshalFuel`. -/
def gofmtFuel : Nat → JValue → String
  | 0, _ => ""
  | n + 1, v =>
    match v with
    | .str s => s
    | .num k => toString k
    | .bool b => if b then "true" else "false"
    | .null => "<nil>"
    | .arr xs => "[" ++ String.intercalate " " (xs.map (gofmtFuel n)) ++ "]"
    | .obj fs =>
      "map[" ++ String.intercalate " "
        ((List.insertionSort pairLe fs).map
          (fun p => p.1 ++ ":" ++ gofmtFuel n p.2)) ++ "]"

/-- `fmt`'s `%v` of a decoded JSON value. -/
def gofmt (v : JValue) : String := gofmtFuel (sizeV v) v

/-- The tag-joining loop of gitbackup.go's `index`: concatenate the
elements of the `tags` array with single spaces, in order; the
`v.(string)` type assertion panics (`none`) on a non-string element. -/
def joinTagsAux (acc sep : String) : List JValue → Option String
  | [] => some acc
  | .str s :: rest => joinTagsAux (acc ++ sep ++ s) " " rest
  | _ :: _ => none

/-- Join the `tags` elements with single spaces (`none` models a panic). -/
def joinTags (ts : List JValue) : Option String := joinTagsAux "" "" ts

/-- The field-rendering loop of gitbackup.go's `index`, over an already
sorted key list: each key renders as one `key: value` line; the `tags` key
is asserted to be an array (panic — `none` — otherwise), skipped entirely
when empty, and otherwise rendered as its elements joined by spaces. -/
def renderFields (js : JObj) : List String → Option String
  | [] => some ""
  | k :: ks =>
    if k = "tags" then
      match alookup k js with
      | some (.arr ts) =>
        if ts.isEmpty then renderFields js ks
        else
          match joinTags ts with
          | none => none
          | some joined =>
            match renderFields js ks with
            | none => none
            | some rest => some ("tags: " ++ joined ++ "\n" ++ rest)
      | _ => none
    else
      match renderFields js ks with
      | none => none
      | some rest => some (k ++ ": " ++ gofmt ((alookup k js).getD .null) ++ "\n" ++ rest)

/-- The file content gitbackup.go renders for one document: the metadata
fields in ascending key order, one line each, then a blank line, then the
body text verbatim. `none` models the type-assertion panics. -/
def renderDoc (js : JObj) (text : String) : Option String :=
  match renderFields js (List.insertionSort strLe (js.map Prod.fst)) with
  | none => none
  | some fields => some (fields ++ "\n" ++ text)

/-- The name of the rendered file: `fmt.Sprintf("%v.tid", js["title"])`. -/
def fileNameOf (js : JObj) : String :=
  gofmt ((alookup "title" js).getD .null) ++ ".tid"

/-- Render the whole store into the (cleared) `tiddlers/` subtree, in
iteration order: tombstones (empty `Meta`) are skipped; a rendering panic
aborts the run with the files written so far and no commit (the `Bool`
is `false` then). The unmarshal-failure skip of the source is not
reachable, the stored blobs being marshalled objects. `ioutil.WriteFile`
overwrites, so a title collision keeps the last file. -/
def renderAll : List (String × Tiddler) → List (String × String) → List (String × String) × Bool
  | [], acc => (acc, true)
  | (_, t) :: rest, acc =>
    match t.meta with
    | none => renderAll rest acc
    | some js =>
      match renderDoc js t.text with
      | none => (acc, false)
      | some content => renderAll rest (aset (fileNameOf js) content acc)

/-- The state the mirror job owns: the `tiddlers/` subtree as of the last
commit (`HEAD`), the same subtree in the working directory, and counters
of the commits and pushes performed. -/
structure GitBackupState where
  headFiles : List (String × String)
  workFiles : List (String × String)
  commits : Nat
  pushes : Nat

/-- `GitDir.Commit` (gitbackup.go): stage `tiddlers/*`, take the status,
and stop without committing or pushing when it is clean; otherwise commit
and push. The status is clean exactly when the working subtree matches the
last commit. -/
def gitCommit (g : GitBackupState) : GitBackupState :=
  if g.workFiles = g.headFiles then g
  else ⟨g.workFiles, g.workFiles, g.commits + 1, g.pushes + 1⟩

/-- One run of gitbackup.go's `index` handler over a store snapshot: clear
the `tiddlers/` subtree, render every current document into it, and call
`Commit`; a rendering panic kills the request before `Commit`. -/
def mirrorRun (g : GitBackupState) (st : ServerState) : GitBackupState :=
  match renderAll st.tiddlers [] with
  | (wt, true) => gitCommit ⟨g.headFiles, wt, g.commits, g.pushes⟩
  | (wt, false) => ⟨g.headFiles, wt, g.commits, g.pushes⟩

/-! ### Spec-side rendering vocabulary and concrete demonstration data -/

/-- The string content of a decoded JSON value expected to be a string
(used only under hypotheses that make the other cases impossible). -/
def strOf : JValue → String
  | .str s => s
  | _ => ""

/-- Spec-side: elements joined by a single space, in order. -/
def spaceJoin : List String → String
  | [] => ""
  | [s] => s
  | s :: rest => s ++ " " ++ spaceJoin rest

/-- Spec-side: concatenation of a list of (newline-terminated) lines. -/
def joinLines (ls : List String) : String := ls.foldr (· ++ ·) ""

/-- Spec-side (`clearly named`, following the spec's words): the one line a
metadata field contributes to the mirror file — nothing for an empty tag
set, the tag names joined by single spaces for a non-empty one, and
`name: value` for every other field. To be compared against `renderDoc`,
which is translated from the source. -/
def specFieldLine (js : JObj) (k : String) : String :=
  if k = "tags" then
    match alookup "tags" js with
    | some (.arr ts) =>
      if ts.isEmpty then ""
      else "tags: " ++ spaceJoin (ts.map strOf) ++ "\n"
    | _ => ""
  else k ++ ": " ++ gofmt ((alookup k js).getD .null) ++ "\n"

/-- Pre-state for the C3 witness: one tiddler written to the empty store. -/
def tombDemoPre : ServerState :=
  (putTiddler emptyState "A" (.parsed [("text", .str "x")])).state

/-- Calls for the C4 witness: one macro tiddler and one plain tiddler. -/
def macroOps : List Op :=
  [.put "M" (.parsed
      [("title", .str "M"), ("tags", .arr [.str "$:/tags/Macro"]), ("text", .str "body")]),
   .put "N" (.parsed [("title", .str "N"), ("text", .str "b2")])]

/-- The state those calls reach. -/
def macroSt : ServerState := runOps macroOps

/-- The stored metadata of the macro tiddler of `macroSt`. -/
def macroMeta : JObj :=
  [("title", .str "M"), ("tags", .arr [.str "$:/tags/Macro"]),
   ("bag", .str "bag"), ("revision", .num 1)]

/-- The stored macro tiddler of `macroSt`. -/
def macroT : Tiddler := ⟨1, some macroMeta, "body"⟩

/-- The stored metadata of the plain tiddler of `macroSt`. -/
def plainMeta : JObj :=
  [("title", .str "N"), ("bag", .str "bag"), ("revision", .num 1)]

/-- The stored plain tiddler of `macroSt`. -/
def plainT : Tiddler := ⟨1, some plainMeta, "b2"⟩

/-! ### Association list lemmas -/

theorem alookup_aset_self {α : Type} (k : String) (v : α) (l : List (String × α)) :
    alookup k (aset k v l) = some v := by
  induction l with
  | nil => simp [aset, alookup]
  | cons e rest ih =>
    obtain ⟨k', v'⟩ := e
    by_cases h : k' = k
    · simp [aset, h, alookup]
    · simp [aset, h, alookup, ih]

theorem alookup_aset_ne {α : Type} {k' k : String} (hne : k' ≠ k) (v : α)
    (l : List (String × α)) : alookup k' (aset k v l) = alookup k' l := by
  have hk : ¬ k = k' := fun hh => hne hh.symm
  induction l with
  | nil => simp [aset, alookup, hk]
  | cons e rest ih =>
    obtain ⟨k₁, v₁⟩ := e
    simp only [aset]
    by_cases h : k₁ = k
    · rw [if_pos h]
      have hk1 : ¬ k₁ = k' := fun hh => hne (hh.symm.trans h)
      simp [alookup, hk, hk1]
    · rw [if_neg h]
      simp only [alookup]
      by_cases h2 : k₁ = k'
      · simp [h2]
      · simp [h2, ih]

theorem alookup_aerase_self {α : Type} (k : String) (l : List (String × α)) :
    alookup k (aerase k l) = none := by
  induction l with
  | nil => rfl
  | cons e rest ih =>
    obtain ⟨k', v'⟩ := e
    by_cases h : k' = k
    · simpa [aerase, List.filter_cons, h] using ih
    · simpa [aerase, List.filter_cons, h, alookup] using ih

theorem alookup_aerase_ne {α : Type} {k' k : String} (hne : k' ≠ k)
    (l : List (String × α)) : alookup k' (aerase k l) = alookup k' l := by
  have hk : ¬ k = k' := fun hh => hne hh.symm
  induction l with
  | nil => rfl
  | cons e rest ih =>
    obtain ⟨k₁, v₁⟩ := e
    by_cases h : k₁ = k
    · have h2 : ¬ k₁ = k' := fun hh => hne (hh.symm.trans h)
      simpa [aerase, List.filter_cons, h, alookup, h2, hk] using ih
    · by_cases h2 : k₁ = k'
      · simp [aerase, List.filter_cons, h, alookup, h2, hne]
      · simpa [aerase, List.filter_cons, h, alookup, h2] using ih

theorem mem_aset {α : Type} {e : String × α} {k : String} {v : α}
    {l : List (String × α)} (h : e ∈ aset k v l) : e = (k, v) ∨ e ∈ l := by
  induction l with
  | nil => simpa [aset] using h
  | cons e' rest ih =>
    obtain ⟨k', v'⟩ := e'
    by_cases hk : k' = k
    · simp only [aset, if_pos hk, List.mem_cons] at h
      rcases h with h | h
      · exact Or.inl h
      · exact Or.inr (List.mem_cons_of_mem _ h)
    · simp only [aset, if_neg hk, List.mem_cons] at h
      rcases h with h | h
      · exact Or.inr (by simp [h])
      · rcases ih h with h2 | h2
        · exact Or.inl h2
        · exact Or.inr (List.mem_cons_of_mem _ h2)

theorem alookup_perm {α : Type} (k : String) {l l' : List (String × α)}
    (hp : l.Perm l') (hnd : (l.map Prod.fst).Nodup) : alookup k l = alookup k l' := by
  induction hp with
  | nil => rfl
  | cons x hp ih =>
    simp only [alookup]
    by_cases h : x.1 = k
    · simp [h]
    · simp only [List.map_cons, List.nodup_cons] at hnd
      simp [h, ih hnd.2]
  | swap x y l =>
    simp only [List.map_cons, List.nodup_cons, List.mem_cons] at hnd
    have hxy : y.1 ≠ x.1 := fun h => hnd.1 (Or.inl h)
    simp only [alookup]
    by_cases h1 : y.1 = k
    · have hx : ¬ x.1 = k := fun hh => hxy (h1.trans hh.symm)
      simp [h1, hx]
    · simp [h1]
  | trans hp1 hp2 ih1 ih2 =>
    have hnd2 := ((hp1.map Prod.fst).nodup_iff).mp hnd
    exact (ih1 hnd).trans (ih2 hnd2)

/-! ### The Go string order: total, transitive, antisymmetric -/

theorem lexLeB_total (a : List Char) : ∀ b, lexLeB a b = true ∨ lexLeB b a = true := by
  induction a with
  | nil => intro b; left; rfl
  | cons x xs ih =>
    intro b
    cases b with
    | nil => right; rfl
    | cons y ys =>
      simp only [lexLeB]
      rcases Nat.lt_trichotomy x.toNat y.toNat with h | h | h
      · left; simp [h]
      · rcases ih ys with h2 | h2 <;> simp_all [Nat.lt_irrefl]
      · right; simp [h, Nat.lt_asymm h]

theorem lexLeB_trans (a : List Char) : ∀ b c, lexLeB a b = true → lexLeB b c = true →
    lexLeB a c = true := by
  induction a with
  | nil => intro b c _ _; rfl
  | cons x xs ih =>
    intro b c h1 h2
    cases b with
    | nil => simp [lexLeB] at h1
    | cons y ys =>
      cases c with
      | nil => simp [lexLeB] at h2
      | cons z zs =>
        simp only [lexLeB] at h1 h2 ⊢
        split_ifs at h1 h2 ⊢ <;>
          first
          | rfl
          | omega
          | exact ih ys zs h1 h2

theorem char_eq_of_toNat_eq {a b : Char} (h : a.toNat = b.toNat) : a = b := by
  cases a; cases b
  congr 1
  exact UInt32.ext h

theorem lexLeB_antisymm (a : List Char) : ∀ b, lexLeB a b = true → lexLeB b a = true →
    a = b := by
  induction a with
  | nil =>
    intro b _ h2
    cases b with
    | nil => rfl
    | cons y ys => simp [lexLeB] at h2
  | cons x xs ih =>
    intro b h1 h2
    cases b with
    | nil => simp [lexLeB] at h1
    | cons y ys =>
      simp only [lexLeB] at h1 h2
      by_cases hxy : x.toNat < y.toNat
      · rw [if_neg (Nat.lt_asymm hxy), if_pos hxy] at h2
        exact absurd h2 (by simp)
      · by_cases hyx : y.toNat < x.toNat
        · rw [if_neg hxy, if_pos hyx] at h1
          exact absurd h1 (by simp)
        · rw [if_neg hxy, if_neg hyx] at h1
          rw [if_neg hyx, if_neg hxy] at h2
          have hc : x = y := char_eq_of_toNat_eq (by omega)
          rw [hc, ih ys h1 h2]

instance : IsTotal String strLe := ⟨fun a b => lexLeB_total a.data b.data⟩

instance : IsTrans String strLe :=
  ⟨fun a b c h1 h2 => lexLeB_trans a.data b.data c.data h1 h2⟩

instance : IsAntisymm String strLe :=
  ⟨fun a b h1 h2 => String.ext (lexLeB_antisymm a.data b.data h1 h2)⟩

/-- Sorting is determined by the multiset of keys: permuted inputs sort to
the same list. -/
theorem insertionSort_eq_of_perm {l l' : List String} (hp : l.Perm l') :
    List.insertionSort strLe l = List.insertionSort strLe l' :=
  List.eq_of_perm_of_sorted
    ((List.perm_insertionSort _ l).trans (hp.trans (List.perm_insertionSort _ l').symm))
    (List.sorted_insertionSort _ l) (List.sorted_insertionSort _ l')

/-! ### The revision protocol along a run -/

theorem stepW_state_of_assigned_none {st : ServerState} {op : Op}
    (h : (stepW st op).assigned = none) : (stepW st op).state = st := by
  cases op with
  | put title p =>
    cases p with
    | unreadable => rfl
    | unparsable => rfl
    | parsed js => simp [stepW, putTiddler] at h
  | del title m =>
    cases m with
    | delete =>
      cases halo : alookup title st.tiddlers with
      | none => simp [stepW, deleteTiddler, halo]
      | some t => simp [stepW, deleteTiddler, halo] at h
    | get => rfl
    | put => rfl
    | other => rfl

theorem stepW_assigned_some {st : ServerState} {op : Op} {r : Nat}
    (h : (stepW st op).assigned = some r) :
    r = curRev st op.title + 1 ∧ curRev (stepW st op).state op.title = r := by
  cases op with
  | put title p =>
    cases p with
    | unreadable => simp [stepW, putTiddler] at h
    | unparsable => simp [stepW, putTiddler] at h
    | parsed js =>
      cases halo : alookup title st.tiddlers with
      | none =>
        simp only [stepW, putTiddler, halo, Op.title] at h ⊢
        have hr := Option.some.inj h
        exact ⟨by simp [curRev, halo, ← hr], by simp [curRev, alookup_aset_self, ← hr]⟩
      | some old =>
        simp only [stepW, putTiddler, halo, Op.title] at h ⊢
        have hr := Option.some.inj h
        exact ⟨by simp [curRev, halo, ← hr], by simp [curRev, alookup_aset_self, ← hr]⟩
  | del title m =>
    cases m with
    | delete =>
      cases halo : alookup title st.tiddlers with
      | none => simp [stepW, deleteTiddler, halo] at h
      | some t =>
        simp only [stepW, deleteTiddler, halo, Op.title] at h ⊢
        have hr := Option.some.inj h
        exact ⟨by simp [curRev, halo, ← hr], by simp [curRev, alookup_aset_self, ← hr]⟩
    | get => simp [stepW, deleteTiddler] at h
    | put => simp [stepW, deleteTiddler] at h
    | other => simp [stepW, deleteTiddler] at h

theorem curRev_applyOp_ne {st : ServerState} {op : Op} {T : String}
    (hne : op.title ≠ T) : curRev (applyOp st op) T = curRev st T := by
  cases op with
  | put title p =>
    cases p with
    | unreadable => rfl
    | unparsable => rfl
    | parsed js =>
      simp only [Op.title] at hne
      have hne2 : T ≠ title := fun hh => hne hh.symm
      simp [applyOp, stepW, putTiddler, curRev, alookup_aset_ne hne2]
  | del title m =>
    cases m with
    | delete =>
      simp only [Op.title] at hne
      have hne2 : T ≠ title := fun hh => hne hh.symm
      cases halo : alookup title st.tiddlers with
      | none => simp [applyOp, stepW, deleteTiddler, halo]
      | some t => simp [applyOp, stepW, deleteTiddler, halo, curRev, alookup_aset_ne hne2]
    | get => rfl
    | put => rfl
    | other => rfl

/-- Along any run, the revisions assigned to a title form the contiguous
block starting right above the revision the store already held. -/
theorem revsFor_range (T : String) : ∀ (ops : List Op) (st : ServerState),
    revsFor T st ops = List.range' (curRev st T + 1) (revsFor T st ops).length := by
  intro ops
  induction ops with
  | nil => intro st; rfl
  | cons op rest ih =>
    intro st
    by_cases hT : op.title = T
    · cases hasg : (stepW st op).assigned with
      | none =>
        have hstate := stepW_state_of_assigned_none hasg
        simp only [revsFor, hasg, hT, if_pos, Option.toList, List.nil_append, hstate]
        exact ih st
      | some r =>
        obtain ⟨hr, hcur⟩ := stepW_assigned_some hasg
        rw [hT] at hr hcur
        have ihr := ih (stepW st op).state
        simp only [revsFor, hasg, hT, if_pos, Option.toList, List.singleton_append,
          List.length_cons]
        rw [ihr, hcur, ← hr, List.length_range', List.range'_succ]
    · simp only [revsFor, hT, if_neg, ite_false, List.nil_append]
      have hcr : curRev (stepW st op).state T = curRev st T := curRev_applyOp_ne hT
      rw [ih (stepW st op).state, hcr]
      simp [List.length_range']

/-! ### The stored-metadata invariant: `Meta` never contains a `text` key -/

/-- The metadata blob of a stored record, when present, carries no `text`
key (`putTiddler` always deletes it before marshalling). -/
def goodTiddler (t : Tiddler) : Prop :=
  ∀ js, t.meta = some js → alookup "text" js = none

/-- Every current record in the store satisfies `goodTiddler`. -/
def StoreInv (st : ServerState) : Prop :=
  ∀ e ∈ st.tiddlers, goodTiddler e.2

theorem storeInv_applyOp {st : ServerState} (h : StoreInv st) (op : Op) :
    StoreInv (applyOp st op) := by
  cases op with
  | put title p =>
    cases p with
    | unreadable => exact h
    | unparsable => exact h
    | parsed js =>
      intro e he
      simp only [applyOp, stepW, putTiddler] at he
      rcases mem_aset he with he | he
      · intro m hm
        rw [he] at hm
        simp only at hm
        cases hm
        exact alookup_aerase_self _ _
      · exact h e he
  | del title m =>
    cases m with
    | delete =>
      cases halo : alookup title st.tiddlers with
      | none =>
        intro e he
        simp only [applyOp, stepW, deleteTiddler, halo] at he
        exact h e he
      | some t =>
        intro e he
        simp only [applyOp, stepW, deleteTiddler, halo] at he
        rcases mem_aset he with he | he
        · intro m hm
          rw [he] at hm
          simp at hm
        · exact h e he
    | get => exact h
    | put => exact h
    | other => exact h

theorem storeInv_reachable {st : ServerState} (h : Reachable st) : StoreInv st := by
  obtain ⟨ops, rfl⟩ := h
  have main : ∀ (ops : List Op) (st0 : ServerState), StoreInv st0 →
      StoreInv (ops.foldl applyOp st0) := by
    intro ops
    induction ops with
    | nil => intro st0 h0; exact h0
    | cons op rest ih =>
      intro st0 h0
      exact ih (applyOp st0 op) (storeInv_applyOp h0 op)
  exact main ops emptyState (fun e he => by cases he)

/-- With distinct keys, every entry of `aset k v l` whose key is `k`
carries the new value. -/
theorem aset_entries_key {α : Type} {l : List (String × α)} {k : String} {v : α}
    (hnd : (l.map Prod.fst).Nodup) :
    ∀ e ∈ aset k v l, e.1 = k → e.2 = v := by
  induction l with
  | nil =>
    intro e he _
    simp only [aset, List.mem_singleton] at he
    rw [he]
  | cons e₀ rest ih =>
    obtain ⟨k₁, v₁⟩ := e₀
    simp only [List.map_cons, List.nodup_cons] at hnd
    intro e he het
    by_cases hk : k₁ = k
    · simp only [aset, if_pos hk, List.mem_cons] at he
      rcases he with he | he
      · rw [he]
      · exfalso
        apply hnd.1
        rw [hk, ← het]
        exact List.mem_map_of_mem Prod.fst he
    · simp only [aset, if_neg hk, List.mem_cons] at he
      rcases he with he | he
      · exfalso
        apply hk
        rw [← het, he]
      · exact ih hnd.2 e he het

/-- Entries whose key satisfies a property and which all emit nothing can
be dropped from a `filterMap` over the emissions. -/
theorem listBlobs_skip_title {l : List (String × Tiddler)} {title : String}
    (h : ∀ e ∈ l, e.1 = title → emitOne e.2 = none) :
    l.filterMap (fun e => emitOne e.2)
      = (l.filter (fun e => e.1 ≠ title)).filterMap (fun e => emitOne e.2) := by
  induction l with
  | nil => rfl
  | cons e rest ih =>
    have hrest : ∀ e ∈ rest, e.1 = title → emitOne e.2 = none := by
      intro e' he' het
      exact h e' (List.mem_cons_of_mem _ he') het
    by_cases het : e.1 = title
    · have h0 := h e (List.mem_cons_self _ _) het
      simp [List.filterMap_cons, List.filter_cons, het, h0, ih hrest]
    · cases hemit : emitOne e.2 with
      | none => simp [List.filterMap_cons, List.filter_cons, het, hemit, ih hrest]
      | some b => simp [List.filterMap_cons, List.filter_cons, het, hemit, ih hrest]

/-! ### Rendering lemmas -/

theorem foldl_space_prepend (rest : List String) : ∀ a p : String,
    p ++ rest.foldl (fun x s => x ++ " " ++ s) a
      = rest.foldl (fun x s => x ++ " " ++ s) (p ++ a) := by
  induction rest with
  | nil => intro a p; rfl
  | cons c r ih =>
    intro a p
    simp only [List.foldl_cons]
    rw [ih]
    simp [String.append_assoc]

theorem spaceJoin_cons_foldl (ss : List String) : ∀ s : String,
    spaceJoin (s :: ss) = ss.foldl (fun a b => a ++ " " ++ b) s := by
  induction ss with
  | nil => intro s; rfl
  | cons b rest ih =>
    intro s
    show s ++ " " ++ spaceJoin (b :: rest) = _
    rw [ih b]
    simp only [List.foldl_cons]
    exact foldl_space_prepend rest b (s ++ " ")

theorem joinTagsAux_strings (ss : List String) : ∀ acc : String,
    joinTagsAux acc " " (ss.map JValue.str)
      = some (ss.foldl (fun a s => a ++ " " ++ s) acc) := by
  induction ss with
  | nil => intro acc; rfl
  | cons s rest ih =>
    intro acc
    show joinTagsAux (acc ++ " " ++ s) " " (rest.map JValue.str) = _
    rw [ih]
    rfl

theorem joinTags_strings (ss : List String) :
    joinTags (ss.map JValue.str) = some (spaceJoin ss) := by
  cases ss with
  | nil => rfl
  | cons s rest =>
    show joinTagsAux ("" ++ "" ++ s) " " (rest.map JValue.str) = some (spaceJoin (s :: rest))
    rw [joinTagsAux_strings, spaceJoin_cons_foldl, String.empty_append, String.empty_append]

theorem strOf_map_str (ss : List String) : (ss.map JValue.str).map strOf = ss := by
  induction ss with
  | nil => rfl
  | cons s rest ih => simp [strOf, ih]

theorem strOf_comp_map (ss : List String) : ss.map (strOf ∘ JValue.str) = ss := by
  induction ss with
  | nil => rfl
  | cons s rest ih => simp [strOf, Function.comp, ih]

theorem alookup_mem_keys {α : Type} {k : String} {l : List (String × α)}
    (h : k ∈ l.map Prod.fst) : ∃ v, alookup k l = some v := by
  induction l with
  | nil => cases h
  | cons e rest ih =>
    by_cases he : e.1 = k
    · exact ⟨e.2, by simp [alookup, he]⟩
    · simp only [List.map_cons, List.mem_cons] at h
      rcases h with h | h
      · exact absurd h.symm he
      · obtain ⟨v, hv⟩ := ih h
        exact ⟨v, by simp [alookup, he, hv]⟩

theorem renderFields_eq (js : JObj)
    (htags : ∀ v, alookup "tags" js = some v →
      ∃ ss : List String, v = .arr (ss.map JValue.str)) :
    ∀ ks : List String, ("tags" ∈ ks → ∃ v, alookup "tags" js = some v) →
      renderFields js ks = some (joinLines (ks.map (specFieldLine js))) := by
  intro ks
  induction ks with
  | nil => intro _; rfl
  | cons k ks ih =>
    intro hmem
    have hks : "tags" ∈ ks → ∃ v, alookup "tags" js = some v :=
      fun h => hmem (List.mem_cons_of_mem _ h)
    by_cases hk : k = "tags"
    · subst hk
      obtain ⟨v, hv⟩ := hmem (List.mem_cons_self _ _)
      obtain ⟨ss, rfl⟩ := htags v hv
      simp only [renderFields, if_pos rfl, hv]
      cases ss with
      | nil =>
        rw [ih hks]
        simp [joinLines, specFieldLine, hv, String.empty_append]
      | cons s rest =>
        rw [joinTags_strings, ih hks]
        simp [joinLines, specFieldLine, hv, strOf, strOf_comp_map, String.append_assoc]
    · simp only [renderFields, if_neg hk]
      rw [ih hks]
      simp [joinLines, specFieldLine, hk, String.append_assoc]

theorem renderFields_congr {js js' : JObj}
    (hlook : ∀ k, alookup k js' = alookup k js) :
    ∀ ks, renderFields js' ks = renderFields js ks := by
  intro ks
  induction ks with
  | nil => rfl
  | cons k ks ih => simp only [renderFields, hlook, ih]

/-! ### Claims -/

/-- C1: a successful Put assigns revision 1 when no current record exists
and the current revision plus 1 otherwise; a successful Delete assigns the
current revision plus 1; along any run from the empty store, the revisions
assigned to a title form `1, 2, 3, ...` — strictly increasing by one,
never decreasing, never reused. -/
theorem revision_protocol :
    (∀ (st : ServerState) (title : String) (js : JObj),
      alookup title st.tiddlers = none →
      (putTiddler st title (.parsed js)).assigned = some 1) ∧
    (∀ (st : ServerState) (title : String) (js : JObj) (old : Tiddler),
      alookup title st.tiddlers = some old →
      (putTiddler st title (.parsed js)).assigned = some (old.rev + 1)) ∧
    (∀ (st : ServerState) (title : String) (old : Tiddler),
      alookup title st.tiddlers = some old →
      (deleteTiddler st title .delete).assigned = some (old.rev + 1)) ∧
    (∀ (ops : List Op) (T : String),
      revsFor T emptyState ops = List.range' 1 (revsFor T emptyState ops).length) := by
  refine ⟨?_, ?_, ?_, ?_⟩
  · intro st title js h
    simp [putTiddler, h]
  · intro st title js old h
    simp [putTiddler, h]
  · intro st title old h
    simp [deleteTiddler, h]
  · intro ops T
    have h := revsFor_range T ops emptyState
    simpa [curRev, emptyState, alookup] using h

/-- Witness for C1 at concrete inputs: the first Put of a title assigns
revision 1, a second Put assigns 2, and so does a Delete of that state. -/
theorem revision_protocol_witness :
    (putTiddler emptyState "Alpha" (.parsed [("text", JValue.str "x")])).assigned = some 1 ∧
    (putTiddler (putTiddler emptyState "Alpha" (.parsed [("text", JValue.str "x")])).state
      "Alpha" (.parsed [])).assigned = some 2 ∧
    (deleteTiddler (putTiddler emptyState "Alpha" (.parsed [("text", JValue.str "x")])).state
      "Alpha" .delete).assigned = some 2 := by
  refine ⟨revision_protocol.1 emptyState "Alpha" _ rfl, ?_, ?_⟩
  · exact revision_protocol.2.1 _ "Alpha" []
      ⟨1, some [("bag", .str "bag"), ("revision", .num 1)], "x"⟩ rfl
  · exact revision_protocol.2.2.1 _ "Alpha"
      ⟨1, some [("bag", .str "bag"), ("revision", .num 1)], "x"⟩ rfl

/-- C2: a successful Put stores, as current record, metadata equal to the
caller's object with `bag` fixed, `revision` set to the new revision, the
`text` key removed into the separate body field, and every other field
preserved verbatim; a Get after it returns that metadata with the body
merged back in under `text`. -/
theorem put_roundtrip (st : ServerState) (title : String) (js : JObj) :
    ∃ (rev : Nat) (t : Tiddler) (m : JObj),
      (putTiddler st title (.parsed js)).status = statusOK ∧
      (putTiddler st title (.parsed js)).assigned = some rev ∧
      alookup title (putTiddler st title (.parsed js)).state.tiddlers = some t ∧
      t.rev = rev ∧ t.meta = some m ∧
      alookup "bag" m = some (.str "bag") ∧
      alookup "revision" m = some (.num rev) ∧
      alookup "text" m = none ∧
      (∀ k, k ≠ "bag" → k ≠ "revision" → k ≠ "text" → alookup k m = alookup k js) ∧
      (∀ s, alookup "text" js = some (.str s) → t.text = s) ∧
      (getTiddler (putTiddler st title (.parsed js)).state title).status = statusOK ∧
      ∃ b, (getTiddler (putTiddler st title (.parsed js)).state title).body = some b ∧
        alookup "text" b = some (.str t.text) ∧
        (∀ k, k ≠ "text" → alookup k b = alookup k m) := by
  have hbt : ("bag" : String) ≠ "text" := by decide
  have hrt : ("revision" : String) ≠ "text" := by decide
  have hbr : ("bag" : String) ≠ "revision" := by decide
  have htr : ("text" : String) ≠ "revision" := by decide
  have htb : ("text" : String) ≠ "bag" := by decide
  refine ⟨_, _, _, rfl, rfl, alookup_aset_self _ _ _, rfl, rfl, ?_, ?_, ?_, ?_, ?_, ?_, ?_⟩
  · rw [alookup_aerase_ne hbt, alookup_aset_ne hbr, alookup_aset_self]
  · rw [alookup_aerase_ne hrt, alookup_aset_self]
  · exact alookup_aerase_self _ _
  · intro k hkb hkr hkt
    rw [alookup_aerase_ne hkt, alookup_aset_ne hkr, alookup_aset_ne hkb]
  · intro s h
    show (match alookup "text"
        (aset "revision" _ (aset "bag" (JValue.str "bag") js)) with
      | some (JValue.str s) => s
      | _ => "") = s
    rw [alookup_aset_ne htr, alookup_aset_ne htb, h]
  · simp [getTiddler, putTiddler, alookup_aset_self]
  · exact ⟨_, by simp [getTiddler, putTiddler, alookup_aset_self], alookup_aset_self _ _ _,
      fun k hkt => alookup_aset_ne hkt _ _⟩

/-- Witness for C2 at the spec's own example: `Put(T, a:1, text:"x")`
then `Get(T)` yields metadata holding `a:1`, the injected `bag` and
`revision`, and `text = "x"`. -/
theorem put_roundtrip_witness :
    ∃ (rev : Nat) (t : Tiddler) (m : JObj),
      (putTiddler emptyState "T" (.parsed [("a", .num 1), ("text", .str "x")])).status
        = statusOK ∧
      (putTiddler emptyState "T" (.parsed [("a", .num 1), ("text", .str "x")])).assigned
        = some rev ∧
      alookup "T"
        (putTiddler emptyState "T"
          (.parsed [("a", .num 1), ("text", .str "x")])).state.tiddlers = some t ∧
      t.rev = rev ∧ t.meta = some m ∧
      alookup "bag" m = some (.str "bag") ∧
      alookup "revision" m = some (.num rev) ∧
      alookup "text" m = none ∧
      (∀ k, k ≠ "bag" → k ≠ "revision" → k ≠ "text" →
        alookup k m = alookup k [("a", JValue.num 1), ("text", JValue.str "x")]) ∧
      (∀ s, alookup "text" [("a", JValue.num 1), ("text", JValue.str "x")]
        = some (.str s) → t.text = s) ∧
      (getTiddler
        (putTiddler emptyState "T" (.parsed [("a", .num 1), ("text", .str "x")])).state
          "T").status = statusOK ∧
      ∃ b, (getTiddler
          (putTiddler emptyState "T" (.parsed [("a", .num 1), ("text", .str "x")])).state
            "T").body = some b ∧
        alookup "text" b = some (.str t.text) ∧
        (∀ k, k ≠ "text" → alookup k b = alookup k m) :=
  put_roundtrip emptyState "T" [("a", .num 1), ("text", .str "x")]

/-- C10: a Put stores metadata with no `text` key ever; when the caller's
`text` is absent or not a JSON string, the write still succeeds with the
body set to the empty string. -/
theorem put_text_extraction (st : ServerState) (title : String) (js : JObj) :
    (∀ t m, alookup title (putTiddler st title (.parsed js)).state.tiddlers = some t →
      t.meta = some m → alookup "text" m = none) ∧
    ((∀ s, alookup "text" js ≠ some (.str s)) →
      (putTiddler st title (.parsed js)).status = statusOK ∧
      ∃ t, alookup title (putTiddler st title (.parsed js)).state.tiddlers = some t ∧
        t.text = "") := by
  have htr : ("text" : String) ≠ "revision" := by decide
  have htb : ("text" : String) ≠ "bag" := by decide
  constructor
  · intro t m ht hm
    have key : alookup title (putTiddler st title (.parsed js)).state.tiddlers
        = some ⟨_, some (aerase "text" (aset "revision" _ (aset "bag" (.str "bag") js))), _⟩ :=
      alookup_aset_self _ _ _
    rw [key] at ht
    have h1 := Option.some.inj ht
    subst h1
    have h2 := Option.some.inj hm
    subst h2
    exact alookup_aerase_self _ _
  · intro hns
    refine ⟨rfl, _, alookup_aset_self _ _ _, ?_⟩
    show (match alookup "text"
        (aset "revision" _ (aset "bag" (JValue.str "bag") js)) with
      | some (JValue.str s) => s
      | _ => "") = ""
    rw [alookup_aset_ne htr, alookup_aset_ne htb]
    cases hl : alookup "text" js with
    | none => rfl
    | some v =>
      cases v with
      | str s => exact absurd hl (hns s)
      | num n => rfl
      | bool b => rfl
      | null => rfl
      | arr xs => rfl
      | obj fs => rfl

/-- Witness for C10: a Put whose `text` is a number succeeds, stores an
empty body, and stores metadata without a `text` key. -/
theorem put_text_extraction_witness :
    (∀ t m, alookup "N"
        (putTiddler emptyState "N" (.parsed [("text", .num 5)])).state.tiddlers = some t →
      t.meta = some m → alookup "text" m = none) ∧
    ((putTiddler emptyState "N" (.parsed [("text", .num 5)])).status = statusOK ∧
      ∃ t, alookup "N"
        (putTiddler emptyState "N" (.parsed [("text", .num 5)])).state.tiddlers = some t ∧
        t.text = "") :=
  ⟨(put_text_extraction emptyState "N" [("text", .num 5)]).1,
   (put_text_extraction emptyState "N" [("text", .num 5)]).2
     (by intro s h; simp [alookup] at h)⟩

/-- C7, counterexample: a PUT whose payload is unparsable JSON is answered
with 500 — the `Internal` status — not with 400 (`BadRequest`), refuting
the claim that malformed input fails `BadRequest` (the source calls
`http.Error(w, err.Error(), 500)` on the `json.Unmarshal` error). -/
theorem put_malformed_counterexample :
    (putTiddler emptyState "Alpha" .unparsable).status = statusInternal ∧
    (putTiddler emptyState "Alpha" .unparsable).status ≠ statusBadRequest := by
  exact ⟨rfl, by decide⟩

/-- C7 as amended: a write with unparsable JSON fails with `Internal`
(500), a write with the wrong method fails with 405, and a write whose
body cannot be read fails with `BadRequest` (400); in every such case the
store is unchanged. -/
theorem put_malformed_behavior (st : ServerState) (title : String) :
    putTiddler st title .unparsable = ⟨statusInternal, none, st⟩ ∧
    putTiddler st title .unreadable = ⟨statusBadRequest, none, st⟩ ∧
    (∀ p, tiddlerDispatch st .other title p = ⟨statusBadMethod, none, st⟩) ∧
    (∀ m, m ≠ Method.delete → deleteTiddler st title m = ⟨statusBadMethod, none, st⟩) := by
  refine ⟨rfl, rfl, fun p => rfl, ?_⟩
  intro m hm
  cases m with
  | get => rfl
  | put => rfl
  | other => rfl
  | delete => exact absurd rfl hm

/-- Witness for C7's amended statement at the empty store with a
non-DELETE method on the delete endpoint. -/
theorem put_malformed_behavior_witness :
    putTiddler emptyState "Alpha" .unparsable = ⟨statusInternal, none, emptyState⟩ ∧
    deleteTiddler emptyState "Alpha" .put = ⟨statusBadMethod, none, emptyState⟩ :=
  ⟨(put_malformed_behavior emptyState "Alpha").1,
   (put_malformed_behavior emptyState "Alpha").2.2.2 .put (by intro h; cases h)⟩

/-- C8, counterexample: Get and Delete of a never-written title are
answered with 500 — the `Internal` status — not with a `NotFound` distinct
from it (the source surfaces the `datastore.Get` error via
`http.Error(w, err.Error(), 500)`). -/
theorem missing_title_counterexample :
    (getTiddler emptyState "Alpha").status = statusInternal ∧
    (getTiddler emptyState "Alpha").status ≠ statusNotFound ∧
    (deleteTiddler emptyState "Alpha" .delete).status = statusInternal ∧
    (deleteTiddler emptyState "Alpha" .delete).status ≠ statusNotFound := by
  exact ⟨rfl, by decide, rfl, by decide⟩

/-- C8 as amended: for a title with no current record, Get fails with 500
(`Internal`, carrying the datastore error text) and Delete fails the same
way, leaving the store unchanged. -/
theorem missing_title_internal (st : ServerState) (title : String)
    (h : alookup title st.tiddlers = none) :
    getTiddler st title = ⟨statusInternal, none⟩ ∧
    deleteTiddler st title .delete = ⟨statusInternal, none, st⟩ := by
  constructor
  · simp [getTiddler, h]
  · simp [deleteTiddler, h]

/-- Witness for C8's amended statement at the empty store. -/
theorem missing_title_internal_witness :
    getTiddler emptyState "Alpha" = ⟨statusInternal, none⟩ ∧
    deleteTiddler emptyState "Alpha" .delete = ⟨statusInternal, none, emptyState⟩ :=
  missing_title_internal emptyState "Alpha" rfl

/-- C3, counterexample: after a successful Delete of a written title, Get
does not return a record with empty metadata and text — it fails with 500,
because the tombstone's empty `Meta` string no longer parses as JSON. -/
theorem delete_then_get_counterexample :
    (deleteTiddler
      (putTiddler emptyState "A" (.parsed [("text", .str "x")])).state "A" .delete).status
      = statusOK ∧
    (getTiddler
      (deleteTiddler
        (putTiddler emptyState "A" (.parsed [("text", .str "x")])).state "A" .delete).state
      "A").status = statusInternal ∧
    (getTiddler
      (deleteTiddler
        (putTiddler emptyState "A" (.parsed [("text", .str "x")])).state "A" .delete).state
      "A").body = none := by
  exact ⟨rfl, rfl, rfl⟩

/-- C3 as amended: after a successful Delete of an existing title, the
stored current record keeps the key with cleared metadata and text and
revision one above the pre-delete revision; the matching history record is
written; the listing omits the title entirely; but `Get` of the title now
fails with 500 (`Internal`), since the cleared metadata no longer parses. -/
theorem delete_tombstone (st : ServerState) (title : String) (t : Tiddler)
    (hnd : (st.tiddlers.map Prod.fst).Nodup)
    (h : alookup title st.tiddlers = some t) :
    (deleteTiddler st title .delete).status = statusOK ∧
    (deleteTiddler st title .delete).assigned = some (t.rev + 1) ∧
    alookup title (deleteTiddler st title .delete).state.tiddlers
      = some ⟨t.rev + 1, none, ""⟩ ∧
    alookup (title ++ "#" ++ toString (t.rev + 1))
      (deleteTiddler st title .delete).state.history = some ⟨t.rev + 1, none, ""⟩ ∧
    (getTiddler (deleteTiddler st title .delete).state title).status = statusInternal ∧
    listBlobs (deleteTiddler st title .delete).state
      = ((deleteTiddler st title .delete).state.tiddlers.filter
          (fun e => e.1 ≠ title)).filterMap (fun e => emitOne e.2) := by
  refine ⟨by simp [deleteTiddler, h], by simp [deleteTiddler, h], ?_, ?_, ?_, ?_⟩
  · simp [deleteTiddler, h, alookup_aset_self]
  · simp [deleteTiddler, h, alookup_aset_self]
  · simp [getTiddler, deleteTiddler, h, alookup_aset_self, emitOne]
  · have hkeys : ∀ e ∈ (deleteTiddler st title .delete).state.tiddlers,
        e.1 = title → emitOne e.2 = none := by
      intro e he het
      simp only [deleteTiddler, h] at he
      have := aset_entries_key hnd e he het
      rw [this]
      rfl
    exact listBlobs_skip_title hkeys

/-- Witness for C3's amended statement: delete the one written tiddler;
the current record keeps the key as an empty revision-2 tombstone, the
history record exists, Get answers 500, and the listing omits the title. -/
theorem delete_tombstone_witness :
    (deleteTiddler tombDemoPre "A" .delete).status = statusOK ∧
    (deleteTiddler tombDemoPre "A" .delete).assigned = some 2 ∧
    alookup "A" (deleteTiddler tombDemoPre "A" .delete).state.tiddlers
      = some ⟨2, none, ""⟩ ∧
    alookup ("A" ++ "#" ++ toString 2)
      (deleteTiddler tombDemoPre "A" .delete).state.history = some ⟨2, none, ""⟩ ∧
    (getTiddler (deleteTiddler tombDemoPre "A" .delete).state "A").status
      = statusInternal ∧
    listBlobs (deleteTiddler tombDemoPre "A" .delete).state
      = ((deleteTiddler tombDemoPre "A" .delete).state.tiddlers.filter
          (fun e => e.1 ≠ "A")).filterMap (fun e => emitOne e.2) :=
  delete_tombstone tombDemoPre "A"
    ⟨1, some [("bag", .str "bag"), ("revision", .num 1)], "x"⟩ (by decide) rfl

/-- C5: `Commit` commits and pushes only when the rendered subtree differs
from the last commit — a run whose rendered tree equals `HEAD` performs no
commit and no push — and therefore the second of two consecutive mirror
runs over an unchanged store performs no commit and no push. -/
theorem mirror_idempotent :
    (∀ (g : GitBackupState) (st : ServerState) (wt : List (String × String)),
      renderAll st.tiddlers [] = (wt, true) → wt = g.headFiles →
      mirrorRun g st = ⟨g.headFiles, wt, g.commits, g.pushes⟩) ∧
    (∀ (g : GitBackupState) (st : ServerState),
      (mirrorRun (mirrorRun g st) st).commits = (mirrorRun g st).commits ∧
      (mirrorRun (mirrorRun g st) st).pushes = (mirrorRun g st).pushes) := by
  constructor
  · intro g st wt hra hclean
    simp [mirrorRun, hra, gitCommit, hclean]
  · intro g st
    cases hra : renderAll st.tiddlers [] with
    | mk wt completed =>
      cases completed with
      | true =>
        by_cases hclean : wt = g.headFiles
        · simp [mirrorRun, hra, gitCommit, hclean]
        · simp [mirrorRun, hra, gitCommit, hclean]
      | false =>
        simp [mirrorRun, hra, gitCommit]

/-- Witness for C5's first part: over the empty store the rendered subtree
is empty; a repository whose `HEAD` subtree is empty gets no commit and no
push from a run. -/
theorem mirror_idempotent_witness :
    mirrorRun ⟨[], [], 5, 4⟩ emptyState = ⟨[], [], 5, 4⟩ :=
  mirror_idempotent.1 ⟨[], [], 5, 4⟩ emptyState [] rfl rfl

/-- C6: the mirror renders one line per metadata field, in ascending
lexicographic key order (the rendered fields follow a sorted permutation
of the keys), with a non-empty `tags` field rendered as its elements
joined by single spaces in order and an empty one rendering nothing, then
one blank line, then the body verbatim; and the rendered bytes are
invariant under any permutation of the metadata fields — identical
document content renders identically regardless of field insertion
order. -/
theorem mirror_render_stable (js : JObj) (text : String)
    (hnd : (js.map Prod.fst).Nodup)
    (htags : ∀ v, alookup "tags" js = some v →
      ∃ ss : List String, v = .arr (ss.map JValue.str)) :
    (∃ mk, mk.Perm (js.map Prod.fst) ∧ List.Sorted strLe mk ∧
      renderDoc js text = some (joinLines (mk.map (specFieldLine js)) ++ "\n" ++ text)) ∧
    (∀ js' : JObj, js'.Perm js → renderDoc js' text = renderDoc js text) := by
  constructor
  · refine ⟨List.insertionSort strLe (js.map Prod.fst), List.perm_insertionSort _ _,
      List.sorted_insertionSort _ _, ?_⟩
    have hmem : "tags" ∈ List.insertionSort strLe (js.map Prod.fst) →
        ∃ v, alookup "tags" js = some v := by
      intro h
      exact alookup_mem_keys ((List.perm_insertionSort _ _).mem_iff.mp h)
    simp only [renderDoc]
    rw [renderFields_eq js htags _ hmem]
  · intro js' hp
    have hkeys : (js'.map Prod.fst).Perm (js.map Prod.fst) := hp.map _
    have hnd' : (js'.map Prod.fst).Nodup := (hkeys.nodup_iff).mpr hnd
    have hsort : List.insertionSort strLe (js'.map Prod.fst)
        = List.insertionSort strLe (js.map Prod.fst) := insertionSort_eq_of_perm hkeys
    have hlook : ∀ k, alookup k js' = alookup k js := fun k => alookup_perm k hp hnd'
    simp only [renderDoc]
    rw [hsort, renderFields_congr hlook]

/-- Witness for C6 at the spec's own scenario: metadata with `title` and
two tags renders as a `tags: x y` line, a `title: Alpha` line, a blank
line, then the body — and permuting the two fields renders the same
bytes. -/
theorem mirror_render_stable_witness :
    (∃ mk, mk.Perm ([("title", JValue.str "Alpha"),
        ("tags", JValue.arr [.str "x", .str "y"])].map Prod.fst) ∧
      List.Sorted strLe mk ∧
      renderDoc [("title", JValue.str "Alpha"), ("tags", JValue.arr [.str "x", .str "y"])]
          "hello"
        = some (joinLines (mk.map (specFieldLine
            [("title", JValue.str "Alpha"), ("tags", JValue.arr [.str "x", .str "y"])]))
            ++ "\n" ++ "hello")) ∧
    (∀ js' : JObj,
      js'.Perm [("title", JValue.str "Alpha"), ("tags", JValue.arr [.str "x", .str "y"])] →
      renderDoc js' "hello"
        = renderDoc [("title", JValue.str "Alpha"), ("tags", JValue.arr [.str "x", .str "y"])]
            "hello") ∧
    renderDoc [("title", JValue.str "Alpha"), ("tags", JValue.arr [.str "x", .str "y"])]
        "hello" = some "tags: x y\ntitle: Alpha\n\nhello" := by
  have h := mirror_render_stable
    [("title", JValue.str "Alpha"), ("tags", JValue.arr [.str "x", .str "y"])] "hello"
    (by decide)
    (fun v hv => ⟨["x", "y"], (Option.some.inj hv).symm⟩)
  exact ⟨h.1, h.2, rfl⟩

/-- C4: in the listing, a stored document whose metadata blob carries the
macro marker is emitted with a `text` field equal to its stored body; a
stored document whose blob does not carry the marker is emitted as its
metadata alone, which carries no `text` field; and a document with absent
or empty metadata is skipped. -/
theorem listing_macro_inlining (st : ServerState) (hr : Reachable st) :
    ∀ e ∈ st.tiddlers,
      (e.2.meta = none → emitOne e.2 = none) ∧
      (∀ js, e.2.meta = some js →
        (metaHasMacroTag (marshalObj js) = true →
          emitOne e.2 = some (marshalObj (aset "text" (.str e.2.text) js)) ∧
          alookup "text" (aset "text" (.str e.2.text) js) = some (.str e.2.text)) ∧
        (metaHasMacroTag (marshalObj js) = false →
          emitOne e.2 = some (marshalObj js) ∧ alookup "text" js = none)) := by
  intro e he
  constructor
  · intro hm
    simp [emitOne, hm]
  · intro js hjs
    constructor
    · intro hmac
      exact ⟨by simp [emitOne, hjs, hmac], alookup_aset_self _ _ _⟩
    · intro hmac
      exact ⟨by simp [emitOne, hjs, hmac], storeInv_reachable hr e he js hjs⟩

/-- Witness for C4 over a concrete reachable store holding one macro
tiddler and one plain tiddler: the macro blob is detected and emitted with
its body inlined under `text`, the plain blob is emitted as stored with no
`text` key. -/
theorem listing_macro_inlining_witness :
    Reachable macroSt ∧
    macroSt.tiddlers = [("M", macroT), ("N", plainT)] ∧
    metaHasMacroTag (marshalObj macroMeta) = true ∧
    metaHasMacroTag (marshalObj plainMeta) = false ∧
    emitOne macroT = some (marshalObj (aset "text" (.str "body") macroMeta)) ∧
    emitOne plainT = some (marshalObj plainMeta) ∧
    alookup "text" plainMeta = none := by
  have hr : Reachable macroSt := ⟨macroOps, rfl⟩
  have hlist : macroSt.tiddlers = [("M", macroT), ("N", plainT)] := rfl
  have hmemM : ("M", macroT) ∈ macroSt.tiddlers := by
    rw [hlist]; exact List.mem_cons_self _ _
  have hmemN : ("N", plainT) ∈ macroSt.tiddlers := by
    rw [hlist]; exact List.mem_cons_of_mem _ (List.mem_cons_self _ _)
  have hM := ((listing_macro_inlining macroSt hr ("M", macroT) hmemM).2 macroMeta rfl).1
    (by decide)
  have hN := ((listing_macro_inlining macroSt hr ("N", plainT) hmemN).2 plainMeta rfl).2
    (by decide)
  exact ⟨hr, hlist, by decide, by decide, hM.1, hN.1, hN.2⟩

end Tiddly
